import Mathlib

/-!
# Verification of the SA mining dashboard normalization pipeline

Shallow embedding of the data-normalization pipeline of
`src/streamlit_app.py` (`load_data`, lines 18-48):

* projection/row filter (`dropna(subset=[2])`),
* metric extraction (`str.extract(r'^([A-Z]+)')`),
* long-form reshape (`melt` over the four year columns),
* numeric coercion (`pd.to_numeric(..., errors='coerce')`),
* label cleaning (`str.replace('Mining of ','')`,
  `str.replace(r'\s*\(.*\)','',regex=True)`, `str.strip()`, `str.title()`),
* the aggregate override (`code.str.endswith('29999') -> 'Total Industry'`),
* metric naming (`map(metric_map).fillna(metric)`), and
* the derived sales-per-employee table (`pd.merge(..., on=['Mineral','Year'])`
  followed by `Value_Sales / Value_Emp`).

Cell text is modelled as single-line ASCII text (the string operations of the
source are modelled at that granularity: `str.title`, `str.strip`, the regex,
and `str.replace` are reimplemented below character by character).  Missing
cells (`NaN`) are modelled explicitly; float arithmetic of the derived ratio
is modelled by an exact value domain `PFloat` (`nan` / signed infinity /
finite rational), which classifies division results exactly as IEEE division
does on the cases arising here.
-/

namespace Mining

/-! ## Character model (ASCII fragment of the Python string methods) -/

/-- Whitespace, as stripped by `str.strip()` / matched by `\s` (ASCII core:
space, tab, newline, carriage return). -/
def isWs (c : Char) : Bool := c.toNat = 32 || c.toNat = 9 || c.toNat = 10 || c.toNat = 13

/-- Uppercase ASCII letter, the character class `[A-Z]` of the metric regex. -/
def isUpperA (c : Char) : Bool := 65 ≤ c.toNat && c.toNat ≤ 90

/-- Lowercase ASCII letter. -/
def isLowerA (c : Char) : Bool := 97 ≤ c.toNat && c.toNat ≤ 122

/-- ASCII letter (cased character, for `str.title()` word boundaries). -/
def isAlphaA (c : Char) : Bool := isUpperA c || isLowerA c

/-- ASCII lowercasing of one character, as `str.lower()` does. -/
def lowerChar (c : Char) : Char :=
  if isUpperA c then Char.ofNat (c.toNat + 32) else c

/-- ASCII uppercasing of one character, as `str.upper()` does. -/
def upperChar (c : Char) : Char :=
  if isLowerA c then Char.ofNat (c.toNat - 32) else c

/-- One step of `str.title()`: a letter is uppercased at a word start
(previous character not a letter) and lowercased otherwise; non-letters pass
through. -/
def titleChar (b : Bool) (c : Char) : Char :=
  if isAlphaA c then (if b then lowerChar c else upperChar c) else c

theorem toNat_ofNat_of_small (n : Nat) (h : n < 55296) : (Char.ofNat n).toNat = n := by
  unfold Char.ofNat
  rw [dif_pos (Or.inl h)]
  rfl

theorem isUpperA_iff (c : Char) : isUpperA c = true ↔ 65 ≤ c.toNat ∧ c.toNat ≤ 90 := by
  simp [isUpperA]

theorem isLowerA_iff (c : Char) : isLowerA c = true ↔ 97 ≤ c.toNat ∧ c.toNat ≤ 122 := by
  simp [isLowerA]

theorem lowerChar_toNat (c : Char) (h : isUpperA c = true) :
    (lowerChar c).toNat = c.toNat + 32 := by
  rw [isUpperA_iff] at h
  rw [lowerChar, if_pos ((isUpperA_iff c).mpr h)]
  exact toNat_ofNat_of_small _ (by omega)

theorem upperChar_toNat (c : Char) (h : isLowerA c = true) :
    (upperChar c).toNat = c.toNat - 32 := by
  rw [isLowerA_iff] at h
  rw [upperChar, if_pos ((isLowerA_iff c).mpr h)]
  exact toNat_ofNat_of_small _ (by omega)

theorem isLowerA_lowerChar (c : Char) (h : isUpperA c = true) :
    isLowerA (lowerChar c) = true := by
  have ht := lowerChar_toNat c h
  rw [isUpperA_iff] at h
  rw [isLowerA_iff, ht]
  omega

theorem isUpperA_lowerChar (c : Char) (h : isUpperA c = true) :
    isUpperA (lowerChar c) = false := by
  have ht := lowerChar_toNat c h
  rw [isUpperA_iff] at h
  rw [Bool.eq_false_iff]
  intro hc
  rw [isUpperA_iff] at hc
  omega

theorem isUpperA_upperChar (c : Char) (h : isLowerA c = true) :
    isUpperA (upperChar c) = true := by
  have ht := upperChar_toNat c h
  rw [isLowerA_iff] at h
  rw [isUpperA_iff, ht]
  omega

theorem isLowerA_upperChar (c : Char) (h : isLowerA c = true) :
    isLowerA (upperChar c) = false := by
  have ht := upperChar_toNat c h
  rw [isLowerA_iff] at h
  rw [Bool.eq_false_iff]
  intro hc
  rw [isLowerA_iff] at hc
  omega

theorem lowerChar_of_not_upper (c : Char) (h : isUpperA c = false) : lowerChar c = c := by
  simp [lowerChar, h]

theorem upperChar_of_not_lower (c : Char) (h : isLowerA c = false) : upperChar c = c := by
  simp [upperChar, h]

theorem isAlphaA_lowerChar (c : Char) : isAlphaA (lowerChar c) = isAlphaA c := by
  by_cases h : isUpperA c = true
  · have h1 := isLowerA_lowerChar c h
    have h2 := isUpperA_lowerChar c h
    simp [isAlphaA, h, h1, h2]
  · rw [lowerChar_of_not_upper c (by simpa using h)]

theorem isAlphaA_upperChar (c : Char) : isAlphaA (upperChar c) = isAlphaA c := by
  by_cases h : isLowerA c = true
  · have h1 := isUpperA_upperChar c h
    have h2 := isLowerA_upperChar c h
    simp [isAlphaA, h, h1, h2]
  · rw [upperChar_of_not_lower c (by simpa using h)]

theorem lowerChar_idem (c : Char) : lowerChar (lowerChar c) = lowerChar c := by
  by_cases h : isUpperA c = true
  · exact lowerChar_of_not_upper _ (isUpperA_lowerChar c h)
  · simp [lowerChar_of_not_upper c (by simpa using h)]

theorem upperChar_idem (c : Char) : upperChar (upperChar c) = upperChar c := by
  by_cases h : isLowerA c = true
  · exact upperChar_of_not_lower _ (isLowerA_upperChar c h)
  · simp [upperChar_of_not_lower c (by simpa using h)]

theorem titleChar_alpha (b : Bool) (c : Char) (h : isAlphaA c = true) :
    titleChar b c = (if b then lowerChar c else upperChar c) := by
  rw [titleChar, if_pos h]

theorem titleChar_not_alpha (b : Bool) (c : Char) (h : isAlphaA c = false) :
    titleChar b c = c := by
  rw [titleChar, if_neg (by simp [h])]

theorem isAlphaA_titleChar (b : Bool) (c : Char) : isAlphaA (titleChar b c) = isAlphaA c := by
  by_cases h : isAlphaA c = true
  · rw [titleChar_alpha b c h]
    cases b <;> simp [isAlphaA_lowerChar, isAlphaA_upperChar]
  · rw [titleChar_not_alpha b c (by simpa using h)]

theorem isWs_of_toNat (c : Char) :
    isWs c = true ↔ (c.toNat = 32 ∨ c.toNat = 9 ∨ c.toNat = 10 ∨ c.toNat = 13) := by
  simp [isWs, or_assoc]

theorem isAlphaA_isWs (c : Char) (h : isAlphaA c = true) : isWs c = false := by
  rw [Bool.eq_false_iff]
  intro hw
  rw [isWs_of_toNat] at hw
  rcases (Bool.or_eq_true _ _).mp (by simpa [isAlphaA] using h) with hu | hl
  · rw [isUpperA_iff] at hu
    omega
  · rw [isLowerA_iff] at hl
    omega

theorem isWs_titleChar (b : Bool) (c : Char) : isWs (titleChar b c) = isWs c := by
  by_cases h : isAlphaA c = true
  · have h2 : isAlphaA (titleChar b c) = true := by rw [isAlphaA_titleChar, h]
    rw [isAlphaA_isWs _ h2, isAlphaA_isWs _ h]
  · rw [titleChar_not_alpha b c (by simpa using h)]

theorem titleChar_idem (b : Bool) (c : Char) : titleChar b (titleChar b c) = titleChar b c := by
  by_cases h : isAlphaA c = true
  · have h2 : isAlphaA (titleChar b c) = true := by rw [isAlphaA_titleChar, h]
    rw [titleChar_alpha b _ h2, titleChar_alpha b c h]
    cases b
    · simp only [Bool.false_eq_true, if_false]
      exact upperChar_idem c
    · simp only [if_true]
      exact lowerChar_idem c
  · simp [titleChar_not_alpha b c (by simpa using h)]

theorem isUpperA_titleChar_false (c : Char) (h : isAlphaA c = true) :
    isUpperA (titleChar false c) = true := by
  rw [titleChar_alpha false c h]
  simp only [Bool.false_eq_true, if_false]
  by_cases hl : isLowerA c = true
  · exact isUpperA_upperChar c hl
  · have hl2 : isLowerA c = false := by simpa using hl
    rw [upperChar_of_not_lower c hl2]
    rcases (Bool.or_eq_true _ _).mp (by simpa [isAlphaA] using h) with hu | hl3
    · exact hu
    · exact absurd hl3 (by simp [hl2])

/-! ## String operations of the label cleaner (lines 30-35) -/

/-- `str.title()` over a character list; the flag records whether the
previous character was a letter. -/
def titleMap (b : Bool) : List Char → List Char
  | [] => []
  | c :: cs => titleChar b c :: titleMap (isAlphaA c) cs

/-- `str.title()` (the first character is a word start). -/
def title (s : List Char) : List Char := titleMap false s

/-- Leading-whitespace strip of `str.strip()`. -/
def trimL (s : List Char) : List Char := s.dropWhile isWs

/-- Trailing-whitespace strip of `str.strip()`. -/
def trimR (s : List Char) : List Char := (s.reverse.dropWhile isWs).reverse

/-- `str.strip()`. -/
def trim (s : List Char) : List Char := trimR (trimL s)

/-- The stripped phrase of line 32. -/
def miningOf : List Char := "Mining of ".data

/-- Scanner for `str.replace('Mining of ', '')`: at each position, if the
phrase starts here, consume it and continue scanning after it (without
rescanning replaced text, exactly as Python `str.replace` does); otherwise
keep the character.  The fuel argument only bounds the recursion: every step
consumes at least one character, so fuel `s.length` is never exhausted. -/
def stripMOAux : Nat → List Char → List Char
  | 0, s => s
  | _ + 1, [] => []
  | fuel + 1, c :: cs =>
      if miningOf.isPrefixOf (c :: cs) then stripMOAux fuel ((c :: cs).drop 10)
      else c :: stripMOAux fuel cs

/-- `str.replace('Mining of ', '')` (line 32). -/
def stripMiningOf (s : List Char) : List Char := stripMOAux s.length s

/-- Is there an occurrence of the phrase anywhere in `s`? -/
def hasMO : List Char → Bool
  | [] => false
  | c :: cs => miningOf.isPrefixOf (c :: cs) || hasMO cs

/-- `str.replace(r'\s*\(.*\)', '', regex=True)` (line 33).  On single-line
text the greedy pattern has at most one match: it runs from the whitespace
run immediately before the first parenthesis that is followed by some
closing parenthesis, up to the last closing parenthesis of the string. -/
def removeParen (s : List Char) : List Char :=
  let pre := s.takeWhile (fun c => !decide (c = '('))
  let rest := s.dropWhile (fun c => !decide (c = '('))
  match rest with
  | [] => s
  | _ :: mid =>
      if mid.any (fun c => decide (c = ')')) then
        trimR pre ++ (mid.reverse.takeWhile (fun c => !decide (c = ')'))).reverse
      else s

/-- Is there a closing parenthesis in `s`? -/
def hasCP (s : List Char) : Bool := s.any (fun c => decide (c = ')'))

/-- Does the parenthetical regex match `s` at all: is there an opening
parenthesis with a closing parenthesis somewhere after it? -/
def hasPM : List Char → Bool
  | [] => false
  | c :: cs => if c = '(' then hasCP cs else hasPM cs

/-- The label cleaner of lines 30-35 (after `astype(str)`): strip the
`"Mining of "` phrase, remove the parenthetical, strip whitespace,
title-case. -/
def clean (s : List Char) : List Char := title (trim (removeParen (stripMiningOf s)))

/-- The label cleaner on `String`s. -/
def cleanS (s : String) : String := ⟨clean s.data⟩

/-! ## Cells and numeric coercion (line 27) -/

/-- One spreadsheet cell: missing (`NaN`), numeric, or text. -/
inductive Cell where
  | blank
  | num (q : ℚ)
  | text (s : String)
deriving DecidableEq

/-- Decimal digit. -/
def isDigitA (c : Char) : Bool := 48 ≤ c.toNat && c.toNat ≤ 57

/-- Value of a string of decimal digits. -/
def digitsVal (l : List Char) : Nat := l.foldl (fun a c => a * 10 + (c.toNat - 48)) 0

/-- Model of the numeric coercion `pd.to_numeric(..., errors='coerce')`
applied to a text cell: optional surrounding whitespace, optional sign,
decimal digits with an optional single decimal point (at least one digit in
total).  Anything else (e.g. `"n/a"`) fails to coerce and yields `NaN`. -/
def parseNum (s : List Char) : Option ℚ :=
  let t := trim s
  let su : ℚ × List Char :=
    match t with
    | '-' :: u => (-1, u)
    | '+' :: u => (1, u)
    | u => (1, u)
  let ip := su.2.takeWhile isDigitA
  let rest := su.2.dropWhile isDigitA
  match rest with
  | [] => if ip.isEmpty then none else some (su.1 * digitsVal ip)
  | '.' :: fp =>
      if fp.all isDigitA && !(ip.isEmpty && fp.isEmpty) then
        some (su.1 * ((digitsVal ip : ℚ) + (digitsVal fp : ℚ) / ((10 : ℚ) ^ fp.length)))
      else none
  | _ => none

/-- `pd.to_numeric(..., errors='coerce')` on one cell. -/
def coerceCell : Cell → Option ℚ
  | .blank => none
  | .num q => some q
  | .text s => parseNum s.data

/-! ## The long-format table `df_long` (lines 20-41) -/

/-- One projected spreadsheet row (the result of
`df_raw.iloc[1:, [2,3,10,11,12,13]]`): a code cell, a label cell and four
year-value cells.  Code and label cells are modelled as text-or-missing. -/
structure RawRec where
  code : Option String
  mineral : Option String
  y2012 : Cell
  y2015 : Cell
  y2019 : Cell
  y2022 : Cell
deriving DecidableEq

/-- `astype(str)` on a text-or-missing cell: a missing value prints as
`"nan"`. -/
def cellText : Option String → String
  | some s => s
  | none => "nan"

/-- `str.extract(r'^([A-Z]+)')` (line 22): the longest leading run of
uppercase ASCII letters of the code, `NaN` (`none`) when the code does not
start with one. -/
def extractMetric (s : String) : Option String :=
  let p := s.data.takeWhile isUpperA
  if p.isEmpty then none else some ⟨p⟩

/-- The static metric dictionary of lines 39-40. -/
def metric_map : List (String × String) :=
  [("FOPEN", "Opening Stock"), ("FISALES", "Sales Revenue"), ("FINC", "Total Income"),
   ("FEXP", "Total Expenditure"), ("FCLOSE", "Closing Stock"),
   ("FEMPTOT", "Employment (Persons)")]

/-- `metric.map(metric_map)`: exact dictionary lookup. -/
def lookupMetric (c : String) : Option String :=
  (metric_map.find? (fun p => decide (p.1 = c))).map (fun p => p.2)

/-- Line 41, `df_long['Metric'] = df_long['metric'].map(metric_map).fillna(df_long['metric'])`:
a mapped code becomes its display name, an unmapped code passes through
unchanged, and a missing metric code (`NaN`) stays missing. -/
def metricName : Option String → Option String
  | some c => some ((lookupMetric c).getD c)
  | none => none

/-- The aggregate-sentinel test of line 36:
`code.astype(str).str.endswith('29999')`. -/
def endsAgg (s : String) : Bool := List.isSuffixOf "29999".data s.data

/-- The `Mineral` column for a record: the cleaned label (lines 30-35),
overridden to `"Total Industry"` when the code ends in `29999` (line 36). -/
def recMineral (r : RawRec) : String :=
  if endsAgg (cellText r.code) then "Total Industry" else cleanS (cellText r.mineral)

/-- One row of the long-format table `df_long` (columns `code`, `metric`,
`mineral`, `Year`, `Value`, `Mineral`, `Metric`). -/
structure Obs where
  code : String
  metric : Option String
  mineralRaw : String
  year : Nat
  value : Option ℚ
  mineral : String
  metricDisplay : Option String
deriving DecidableEq

/-- The configured year columns melted on lines 24-26. -/
def years : List Nat := [2012, 2015, 2019, 2022]

/-- The year-value cell of a record. -/
def getCell (r : RawRec) (y : Nat) : Cell :=
  if y = 2012 then r.y2012 else if y = 2015 then r.y2015
  else if y = 2019 then r.y2019 else r.y2022

/-- The row of `df_long` arising from record `r` at year `y`. -/
def mkObs (r : RawRec) (y : Nat) : Obs :=
  { code := cellText r.code
    metric := extractMetric (cellText r.code)
    mineralRaw := cellText r.mineral
    year := y
    value := coerceCell (getCell r y)
    mineral := recMineral r
    metricDisplay := metricName (extractMetric (cellText r.code)) }

/-- Lines 20-41: the published long-format observations table `df_long`.
Rows without a code are dropped (`dropna(subset=[2])`); `melt` stacks one
block of rows per year column. -/
def loadObservations (input : List RawRec) : List Obs :=
  years.flatMap (fun y => (input.filter (fun r => r.code.isSome)).map (fun r => mkObs r y))

/-! ## The derived table `merged` (lines 43-47) -/

/-- Exact model of the float values appearing in the derived ratio: IEEE
NaN, signed infinity, or a finite value (held exactly as a rational). -/
inductive PFloat where
  | nan
  | inf (pos : Bool)
  | fin (q : ℚ)
deriving DecidableEq

/-- Float division as numpy performs it on line 47 on the values occurring
there (finite or NaN): division by zero gives a signed infinity (NaN for
0/0), any operand NaN gives NaN. -/
def divVal : Option ℚ → Option ℚ → PFloat
  | some a, some b =>
      if b = 0 then (if a = 0 then .nan else .inf (decide (0 < a))) else .fin (a / b)
  | _, _ => .nan

/-- One row of the `merged` table: the join keys, the two joined values and
the derived column `Sales_per_Employee` (the other carried-along columns of
the merge are elided). -/
structure DRow where
  mineral : String
  year : Nat
  valueSales : Option ℚ
  valueEmp : Option ℚ
  salesPerEmployee : PFloat
deriving DecidableEq

/-- Line 44: the Sales Revenue slice of `df_long`. -/
def salesRows (obs : List Obs) : List Obs :=
  obs.filter (fun o => decide (o.metricDisplay = some "Sales Revenue"))

/-- Line 45: the Employment slice of `df_long`. -/
def empRows (obs : List Obs) : List Obs :=
  obs.filter (fun o => decide (o.metricDisplay = some "Employment (Persons)"))

/-- Lines 46-47: inner merge of the two slices on `(Mineral, Year)` — one
output row per matching pair of input rows — followed by the division
creating `Sales_per_Employee`. -/
def derive (obs : List Obs) : List DRow :=
  (salesRows obs).flatMap (fun s =>
    ((empRows obs).filter (fun e => decide (e.mineral = s.mineral ∧ e.year = s.year))).map
      (fun e =>
        { mineral := s.mineral, year := s.year, valueSales := s.value, valueEmp := e.value,
          salesPerEmployee := divVal s.value e.value }))

/-- `load_data` (line 48): the pair `(df_long, merged)`. -/
def load_data (input : List RawRec) : List Obs × List DRow :=
  (loadObservations input, derive (loadObservations input))

/-! ## Helper lemmas about the pipeline -/

@[simp] theorem mkObs_code (r : RawRec) (y : Nat) : (mkObs r y).code = cellText r.code := rfl

@[simp] theorem mkObs_metric (r : RawRec) (y : Nat) :
    (mkObs r y).metric = extractMetric (cellText r.code) := rfl

@[simp] theorem mkObs_mineralRaw (r : RawRec) (y : Nat) :
    (mkObs r y).mineralRaw = cellText r.mineral := rfl

@[simp] theorem mkObs_year (r : RawRec) (y : Nat) : (mkObs r y).year = y := rfl

@[simp] theorem mkObs_value (r : RawRec) (y : Nat) :
    (mkObs r y).value = coerceCell (getCell r y) := rfl

@[simp] theorem mkObs_mineral (r : RawRec) (y : Nat) : (mkObs r y).mineral = recMineral r := rfl

@[simp] theorem mkObs_metricDisplay (r : RawRec) (y : Nat) :
    (mkObs r y).metricDisplay = metricName (extractMetric (cellText r.code)) := rfl

theorem mem_loadObservations (input : List RawRec) (o : Obs) :
    o ∈ loadObservations input
      ↔ ∃ y ∈ years, ∃ r ∈ input, r.code.isSome = true ∧ o = mkObs r y := by
  simp only [loadObservations, List.mem_flatMap, List.mem_map, List.mem_filter]
  constructor
  · rintro ⟨y, hy, r, ⟨hr, hsome⟩, rfl⟩
    exact ⟨y, hy, r, hr, hsome, rfl⟩
  · rintro ⟨y, hy, r, hr, hsome, rfl⟩
    exact ⟨y, hy, r, ⟨hr, hsome⟩, rfl⟩

theorem loadObservations_singleton (r : RawRec) (h : r.code.isSome = true) :
    loadObservations [r] = [mkObs r 2012, mkObs r 2015, mkObs r 2019, mkObs r 2022] := by
  simp [loadObservations, years, h]

theorem filter_year_map (l : List RawRec) (y yy : Nat) :
    (List.filter (fun o => decide (o.year = y)) (l.map (fun r => mkObs r yy)))
      = if yy = y then l.map (fun r => mkObs r yy) else [] := by
  rw [List.filter_map]
  have hp : ((fun o => decide (o.year = y)) ∘ fun r => mkObs r yy)
      = fun _ => decide (yy = y) := by
    funext r
    simp
  rw [hp]
  by_cases h : yy = y
  · simp [h]
  · simp [h]

/-! ## Concrete records used by witnesses and counterexamples -/

/-- An aggregate record (code ends in the sentinel). -/
def rAgg : RawRec :=
  { code := some "FISALES29999"
    mineral := some "Mining of All Other Minerals (n.e.c.)"
    y2012 := .num 100
    y2015 := .num 110
    y2019 := .num 120
    y2022 := .num 130 }

/-! ## C1: the reshaper -/

/-- C1: for every input record kept by the projector, the reshaper emits
exactly one ObservationRow per configured year (2012, 2015, 2019, 2022) —
four rows, no year dropped or duplicated — and every emitted row carries
the record's code and label. -/
theorem reshaper_one_row_per_year (input : List RawRec) (r : RawRec)
    (h : r.code.isSome = true) :
    ((loadObservations [r]).map Obs.year = [2012, 2015, 2019, 2022]
      ∧ ∀ o ∈ loadObservations [r],
          o.code = cellText r.code ∧ o.mineralRaw = cellText r.mineral
            ∧ o.mineral = recMineral r)
    ∧ ∀ y ∈ years,
        ((loadObservations input).filter (fun o => decide (o.year = y))).length
          = (input.filter (fun rr => rr.code.isSome)).length := by
  refine ⟨⟨?_, ?_⟩, ?_⟩
  · rw [loadObservations_singleton r h]
    rfl
  · intro o ho
    rw [loadObservations_singleton r h] at ho
    simp only [List.mem_cons, List.not_mem_nil, or_false] at ho
    rcases ho with rfl | rfl | rfl | rfl
    · exact ⟨rfl, rfl, rfl⟩
    · exact ⟨rfl, rfl, rfl⟩
    · exact ⟨rfl, rfl, rfl⟩
    · exact ⟨rfl, rfl, rfl⟩
  · intro y hy
    rw [loadObservations, years]
    simp only [List.flatMap_cons, List.flatMap_nil, List.append_nil, List.filter_append,
      filter_year_map, List.length_append]
    rw [years] at hy
    fin_cases hy <;> simp

/-- C1 witness at a concrete aggregate record. -/
theorem reshaper_one_row_per_year_witness :
    ((loadObservations [rAgg]).map Obs.year = [2012, 2015, 2019, 2022]
      ∧ ∀ o ∈ loadObservations [rAgg],
          o.code = cellText rAgg.code ∧ o.mineralRaw = cellText rAgg.mineral
            ∧ o.mineral = recMineral rAgg)
    ∧ ∀ y ∈ years,
        ((loadObservations [rAgg]).filter (fun o => decide (o.year = y))).length
          = ([rAgg].filter (fun rr => rr.code.isSome)).length :=
  reshaper_one_row_per_year [rAgg] rAgg (by decide)

/-! ## C3: the aggregate-sentinel override -/

/-- C3: every published row whose code ends in the sentinel `29999` carries
the mineral label `"Total Industry"`, whatever its raw label was. -/
theorem aggregate_sentinel_override (input : List RawRec) (o : Obs)
    (ho : o ∈ loadObservations input) (hc : endsAgg o.code = true) :
    o.mineral = "Total Industry" := by
  rw [mem_loadObservations] at ho
  obtain ⟨y, hy, r, hr, hsome, rfl⟩ := ho
  rw [mkObs_code] at hc
  rw [mkObs_mineral, recMineral, if_pos hc]

/-- C3 witness at a concrete aggregate record. -/
theorem aggregate_sentinel_override_witness : (mkObs rAgg 2012).mineral = "Total Industry" :=
  aggregate_sentinel_override [rAgg] (mkObs rAgg 2012) (by decide) (by decide)

/-! ## C7: the metric namer -/

/-- C7: the metric namer is total: every metric code yields a name — the
mapped display name for codes in the static table, the raw code itself
otherwise. -/
theorem metric_namer_total (c : String) :
    ∃ n, metricName (some c) = some n
      ∧ ((c, n) ∈ metric_map ∨ (n = c ∧ ∀ p ∈ metric_map, p.1 ≠ c)) := by
  refine ⟨(lookupMetric c).getD c, rfl, ?_⟩
  rcases hfind : metric_map.find? (fun p => decide (p.1 = c)) with _ | ⟨a, b⟩
  · right
    constructor
    · simp [lookupMetric, hfind]
    · intro p hp
      have hnp := List.find?_eq_none.mp hfind p hp
      simpa using hnp
  · left
    have hmem := List.mem_of_find?_eq_some hfind
    have hpred := List.find?_some hfind
    have hac : a = c := by simpa using hpred
    subst hac
    have hval : (lookupMetric a).getD a = b := by simp [lookupMetric, hfind]
    rw [hval]
    exact hmem

/-! ## C2: coercion failure -/

/-- A record with a non-coercible value cell at 2012. -/
def rNa : RawRec :=
  { code := some "FISALES23011"
    mineral := some "Mining of gold"
    y2012 := .text "n/a"
    y2015 := .num 110
    y2019 := .num 120
    y2022 := .num 130 }

/-- C2 counterexample: the `"n/a"` cell coerces to a null value, but the
resulting row is NOT excluded from the published observations — it is a
member of the returned table with a null value, refuting the exclusion part
of the claim. -/
theorem null_value_row_not_excluded :
    (mkObs rNa 2012).value = none ∧ mkObs rNa 2012 ∈ (load_data [rNa]).1 := by
  constructor
  · decide
  · decide

/-- C2 (amended): a cell that cannot be coerced yields a null value for its
row, and the row remains in the published observations with that null value
(it is neither excluded nor defaulted to a number). -/
theorem coercion_failure_keeps_null_row (input : List RawRec) (r : RawRec) (y : Nat)
    (hr : r ∈ input) (hc : r.code.isSome = true) (hy : y ∈ years)
    (hv : coerceCell (getCell r y) = none) :
    mkObs r y ∈ (load_data input).1 ∧ (mkObs r y).value = none := by
  constructor
  · rw [load_data, mem_loadObservations]
    exact ⟨y, hy, r, hr, hc, rfl⟩
  · rw [mkObs_value, hv]

/-- C2 (amended) witness at the concrete `"n/a"` record. -/
theorem coercion_failure_keeps_null_row_witness :
    mkObs rNa 2012 ∈ (load_data [rNa]).1 ∧ (mkObs rNa 2012).value = none :=
  coercion_failure_keeps_null_row [rNa] rNa 2012 (by decide) (by decide) (by decide) (by decide)

/-! ## C4: the label-text aggregate trigger -/

/-- A record whose raw label contains the "all industries" marker phrase but
whose code does not end in the aggregate sentinel. -/
def rAllInd : RawRec :=
  { code := some "FISALES23011"
    mineral := some "Mining of all industries"
    y2012 := .num 100
    y2015 := .num 110
    y2019 := .num 120
    y2022 := .num 130 }

/-- C4 counterexample: with the marker phrase in the raw label but no
sentinel suffix on the code, the published label is the cleaned label
`"All Industries"`, not `"Total Industry"` — the label-text trigger alone
does nothing. -/
theorem label_marker_alone_not_sufficient :
    endsAgg (cellText rAllInd.code) = false
      ∧ mkObs rAllInd 2012 ∈ (load_data [rAllInd]).1
      ∧ (mkObs rAllInd 2012).mineral = "All Industries"
      ∧ ¬ (mkObs rAllInd 2012).mineral = "Total Industry" := by
  refine ⟨by decide, by decide, by decide, by decide⟩

/-- C4 (amended): only the code-suffix sentinel triggers the `"Total
Industry"` override; a record whose code does not end in `29999` keeps its
cleaned label whatever the raw label text says. -/
theorem no_override_without_sentinel (r : RawRec) (h : endsAgg (cellText r.code) = false) :
    ∀ o ∈ loadObservations [r], o.mineral = cleanS (cellText r.mineral) := by
  intro o ho
  rw [mem_loadObservations] at ho
  obtain ⟨y, hy, rr, hrr, hsome, rfl⟩ := ho
  simp only [List.mem_cons, List.not_mem_nil, or_false] at hrr
  subst hrr
  rw [mkObs_mineral, recMineral, if_neg (by simp [h])]

/-- C4 (amended) witness at the concrete marker-phrase record. -/
theorem no_override_without_sentinel_witness :
    (mkObs rAllInd 2012).mineral = cleanS (cellText rAllInd.mineral) :=
  no_override_without_sentinel rAllInd (by decide) (mkObs rAllInd 2012) (by decide)

/-! ## C8: metric extraction -/

theorem head_dropWhile_not (p : Char → Bool) (l : List Char) (c : Char)
    (h : (l.dropWhile p).head? = some c) : p c = false := by
  induction l with
  | nil => simp [List.dropWhile] at h
  | cons a t ih =>
    by_cases ha : p a = true
    · rw [List.dropWhile_cons_of_pos ha] at h
      exact ih h
    · rw [List.dropWhile_cons_of_neg ha] at h
      simp only [List.head?_cons, Option.some.injEq] at h
      subst h
      simpa using ha

/-- A record whose code has no leading uppercase-letter run. -/
def rNoCode : RawRec :=
  { code := some "123abc"
    mineral := some "gold"
    y2012 := .num 1
    y2015 := .num 2
    y2019 := .num 3
    y2022 := .num 4 }

/-- C8 counterexample: a record whose code has no leading uppercase run is
NOT excluded from the published observations — all four of its rows are
published (with a missing metric code), refuting the exclusion part of the
claim. -/
theorem unextractable_code_not_excluded :
    extractMetric (cellText rNoCode.code) = none
      ∧ mkObs rNoCode 2012 ∈ (load_data [rNoCode]).1
      ∧ ((load_data [rNoCode]).1).length = 4 := by
  refine ⟨by decide, by decide, by decide⟩

/-- C8 (amended): the extracted metric code is the longest leading run of
uppercase ASCII letters (empty run giving a missing code), and a record
whose code has no such run is kept: its four rows are published with a
missing metric code and missing metric display name. -/
theorem metric_extraction_longest_run :
    (∀ s : String, ∃ p t, s.data = p ++ t
        ∧ (∀ c ∈ p, isUpperA c = true)
        ∧ (∀ c, t.head? = some c → isUpperA c = false)
        ∧ extractMetric s = (if p.isEmpty then none else some ⟨p⟩))
    ∧ ∀ r : RawRec, r.code.isSome = true → extractMetric (cellText r.code) = none →
        (loadObservations [r]).length = 4
          ∧ ∀ o ∈ loadObservations [r], o.metric = none ∧ o.metricDisplay = none := by
  constructor
  · intro s
    refine ⟨s.data.takeWhile isUpperA, s.data.dropWhile isUpperA,
      (List.takeWhile_append_dropWhile _ _).symm, ?_, ?_, rfl⟩
    · intro c hc
      exact List.mem_takeWhile_imp hc
    · intro c hc
      exact head_dropWhile_not _ _ _ hc
  · intro r hsome hext
    constructor
    · rw [loadObservations_singleton r hsome]
      rfl
    · intro o ho
      rw [mem_loadObservations] at ho
      obtain ⟨y, hy, rr, hrr, _, rfl⟩ := ho
      simp only [List.mem_cons, List.not_mem_nil, or_false] at hrr
      subst hrr
      rw [mkObs_metric, mkObs_metricDisplay, hext]
      exact ⟨rfl, rfl⟩

/-- C8 (amended) witness at the concrete unextractable-code record. -/
theorem metric_extraction_longest_run_witness : (loadObservations [rNoCode]).length = 4 :=
  (metric_extraction_longest_run.2 rNoCode (by decide) (by decide)).1

/-! ## C10: empty labels -/

/-- A record whose label cleans to the empty string. -/
def rEmptyLabel : RawRec :=
  { code := some "FISALES23011"
    mineral := some "(Unspecified)"
    y2012 := .num 1
    y2015 := .num 2
    y2019 := .num 3
    y2022 := .num 4 }

/-- C10 counterexample: a label that becomes empty after cleaning is not
rejected: the record's row is published with an empty-string mineral label,
refuting the claim. -/
theorem empty_label_enters_dataset :
    cleanS (cellText rEmptyLabel.mineral) = ""
      ∧ mkObs rEmptyLabel 2012 ∈ (load_data [rEmptyLabel]).1
      ∧ (mkObs rEmptyLabel 2012).mineral = "" := by
  refine ⟨by decide, by decide, by decide⟩

/-- C10 (amended): a record whose label cleans to the empty string is NOT
skipped; all four of its rows are published carrying the empty-string
mineral label (when the code-suffix override does not replace it). -/
theorem empty_label_rows_published (r : RawRec) (hc : r.code.isSome = true)
    (hagg : endsAgg (cellText r.code) = false)
    (hempty : cleanS (cellText r.mineral) = "") :
    (loadObservations [r]).length = 4 ∧ ∀ o ∈ loadObservations [r], o.mineral = "" := by
  constructor
  · rw [loadObservations_singleton r hc]
    rfl
  · intro o ho
    rw [mem_loadObservations] at ho
    obtain ⟨y, hy, rr, hrr, _, rfl⟩ := ho
    simp only [List.mem_cons, List.not_mem_nil, or_false] at hrr
    subst hrr
    rw [mkObs_mineral, recMineral, if_neg (by simp [hagg]), hempty]

/-- C10 (amended) witness at the concrete empty-cleaning record. -/
theorem empty_label_rows_published_witness :
    (loadObservations [rEmptyLabel]).length = 4
      ∧ ∀ o ∈ loadObservations [rEmptyLabel], o.mineral = "" :=
  empty_label_rows_published rEmptyLabel (by decide) (by decide) (by decide)

/-! ## Helper lemmas about the derived table -/

theorem divVal_none_right (a : Option ℚ) : divVal a none = PFloat.nan := by
  cases a <;> rfl

theorem divVal_none_left (b : Option ℚ) : divVal none b = PFloat.nan := by
  cases b <;> rfl

theorem divVal_some_some (a b : ℚ) :
    divVal (some a) (some b)
      = (if b = 0 then (if a = 0 then PFloat.nan else PFloat.inf (decide (0 < a)))
         else PFloat.fin (a / b)) := rfl

theorem mem_derive (obs : List Obs) (d : DRow) (hd : d ∈ derive obs) :
    ∃ s ∈ salesRows obs, ∃ e ∈ empRows obs,
      d = { mineral := s.mineral, year := s.year, valueSales := s.value, valueEmp := e.value,
            salesPerEmployee := divVal s.value e.value } := by
  rw [derive, List.mem_flatMap] at hd
  obtain ⟨s, hs, hm⟩ := hd
  rw [List.mem_map] at hm
  obtain ⟨e, he, heq⟩ := hm
  rw [List.mem_filter] at he
  exact ⟨s, hs, e, he.1, heq.symm⟩

theorem length_filter_flatMap {α β : Type} (l : List α) (f : α → List β) (p : β → Bool) :
    ((l.flatMap f).filter p).length = (l.map (fun x => ((f x).filter p).length)).sum := by
  induction l with
  | nil => rfl
  | cons a t ih => simp [List.flatMap_cons, List.filter_append, ih]

theorem sum_map_ite {α : Type} (l : List α) (q : α → Bool) (E : Nat) :
    (l.map (fun x => if q x = true then E else 0)).sum = (l.filter q).length * E := by
  induction l with
  | nil => simp
  | cons a t ih =>
    by_cases h : q a = true
    · simp [h, ih, Nat.succ_mul, Nat.add_comm]
    · simp [h, ih]

/-! ## C5: the inner join -/

/-- A sales record cleaning to mineral "Gold". -/
def rSGold : RawRec :=
  { code := some "FISALES23011"
    mineral := some "Mining of gold"
    y2012 := .num 100
    y2015 := .blank
    y2019 := .blank
    y2022 := .num 200 }

/-- A second, distinct sales record cleaning to the same mineral "Gold". -/
def rSGold2 : RawRec :=
  { code := some "FISALES23012"
    mineral := some "Gold (other)"
    y2012 := .num 50
    y2015 := .blank
    y2019 := .blank
    y2022 := .num 60 }

/-- An employment record cleaning to mineral "Gold", with zero employment
in 2012. -/
def rEGold : RawRec :=
  { code := some "FEMPTOT23011"
    mineral := some "gold"
    y2012 := .num 0
    y2015 := .blank
    y2019 := .blank
    y2022 := .num 10 }

/-- C5 counterexample: two distinct sales records clean to the same mineral
label, so the key (Gold, 2012) is present in both slices yet the derived
table contains TWO rows for it, refuting "exactly one DerivedRow per pair
present in both slices". -/
theorem joined_pair_two_derived_rows :
    ((salesRows (loadObservations [rSGold, rSGold2, rEGold])).filter
        (fun o => decide (o.mineral = "Gold" ∧ o.year = 2012))).length = 2
      ∧ ((empRows (loadObservations [rSGold, rSGold2, rEGold])).filter
        (fun o => decide (o.mineral = "Gold" ∧ o.year = 2012))).length = 1
      ∧ (((load_data [rSGold, rSGold2, rEGold]).2).filter
        (fun d => decide (d.mineral = "Gold" ∧ d.year = 2012))).length = 2 := by
  refine ⟨by decide, by decide, by decide⟩

/-- Observation rows realizing the spec example: a mineral present in the
Sales Revenue slice for 2012 and 2022 but in the Employment slice only for
2022. -/
def oSales12 : Obs :=
  { code := "FISALES23011"
    metric := some "FISALES"
    mineralRaw := "Gold"
    year := 2012
    value := some 100
    mineral := "Gold"
    metricDisplay := some "Sales Revenue" }

/-- The 2022 sales row of the example. -/
def oSales22 : Obs :=
  { code := "FISALES23011"
    metric := some "FISALES"
    mineralRaw := "Gold"
    year := 2022
    value := some 200
    mineral := "Gold"
    metricDisplay := some "Sales Revenue" }

/-- The single employment row (2022) of the example. -/
def oEmp22 : Obs :=
  { code := "FEMPTOT23011"
    metric := some "FEMPTOT"
    mineralRaw := "Gold"
    year := 2022
    value := some 10
    mineral := "Gold"
    metricDisplay := some "Employment (Persons)" }

/-- The example observation table. -/
def obsEx : List Obs := [oSales12, oSales22, oEmp22]

/-- C5 (amended): the merge emits one DerivedRow per matching PAIR of rows:
the number of DerivedRows carrying a given (mineral, year) key equals the
product of the two slices' row counts at that key.  Hence a key present in
only one slice yields no row (inner join), and a key occurring once in each
slice yields exactly one row; in particular the example input — sales rows
for 2012 and 2022 but employment only for 2022 — yields exactly one
DerivedRow, for 2022. -/
theorem derive_join_multiplicity (obs : List Obs) (m : String) (y : Nat) :
    (((derive obs).filter (fun d => decide (d.mineral = m ∧ d.year = y))).length
      = ((salesRows obs).filter (fun o => decide (o.mineral = m ∧ o.year = y))).length
        * ((empRows obs).filter (fun o => decide (o.mineral = m ∧ o.year = y))).length)
    ∧ (derive obsEx).map DRow.year = [2022] := by
  constructor
  · rw [derive, length_filter_flatMap]
    have hstep : ∀ s ∈ salesRows obs,
        ((((empRows obs).filter
              (fun e => decide (e.mineral = s.mineral ∧ e.year = s.year))).map
            (fun (e : Obs) => DRow.mk s.mineral s.year s.value e.value (divVal s.value e.value))).filter
          (fun d => decide (d.mineral = m ∧ d.year = y))).length
        = if decide (s.mineral = m ∧ s.year = y) = true
            then ((empRows obs).filter
              (fun o => decide (o.mineral = m ∧ o.year = y))).length
            else 0 := by
      intro s hs
      rw [List.filter_map]
      have hconst : ((fun d => decide (d.mineral = m ∧ d.year = y)) ∘
          (fun (e : Obs) => DRow.mk s.mineral s.year s.value e.value (divVal s.value e.value)))
          = fun _ => decide (s.mineral = m ∧ s.year = y) := rfl
      rw [hconst]
      by_cases hk : s.mineral = m ∧ s.year = y
      · obtain ⟨hm2, hy2⟩ := hk
        subst hm2
        subst hy2
        simp
      · simp [hk]
    rw [List.map_congr_left hstep, sum_map_ite]
  · decide

/-! ## C6: the ratio on zero or absent employment -/

/-- C6 counterexample: a derived row with employment value 0 whose ratio is
+infinity — a defined infinite float value produced by actually performing
the division — refuting "undefined, not any finite or infinite number" and
"division only performed when the denominator is non-zero". -/
theorem zero_employment_infinite_quotient :
    ∃ d ∈ (load_data [rSGold, rEGold]).2,
      d.valueEmp = some 0 ∧ d.salesPerEmployee = PFloat.inf true := by decide

/-- C6 (amended): the division on line 47 is performed unconditionally with
float semantics: the ratio is NaN when either value is absent, a signed
infinity when employment is zero and sales non-zero (NaN for 0/0), and the
finite quotient otherwise. -/
theorem sales_per_employee_division (obs : List Obs) (d : DRow) (hd : d ∈ derive obs) :
    (d.valueEmp = none → d.salesPerEmployee = PFloat.nan)
    ∧ (d.valueSales = none → d.salesPerEmployee = PFloat.nan)
    ∧ (∀ a, d.valueSales = some a → d.valueEmp = some 0 →
        d.salesPerEmployee
          = (if a = 0 then PFloat.nan else PFloat.inf (decide (0 < a))))
    ∧ (∀ a b, d.valueSales = some a → d.valueEmp = some b → ¬ b = 0 →
        d.salesPerEmployee = PFloat.fin (a / b)) := by
  obtain ⟨s, hs, e, he, rfl⟩ := mem_derive obs d hd
  refine ⟨?_, ?_, ?_, ?_⟩
  · intro h
    have h2 : e.value = none := h
    show divVal s.value e.value = PFloat.nan
    rw [h2, divVal_none_right]
  · intro h
    have h2 : s.value = none := h
    show divVal s.value e.value = PFloat.nan
    rw [h2, divVal_none_left]
  · intro a ha hb
    have ha2 : s.value = some a := ha
    have hb2 : e.value = some 0 := hb
    show divVal s.value e.value = _
    rw [ha2, hb2, divVal_some_some, if_pos rfl]
  · intro a b ha hb hbz
    have ha2 : s.value = some a := ha
    have hb2 : e.value = some b := hb
    show divVal s.value e.value = _
    rw [ha2, hb2, divVal_some_some, if_neg hbz]

/-- The derived row for (Gold, 2012) of the C6 counterexample input. -/
def dGold : DRow :=
  { mineral := "Gold"
    year := 2012
    valueSales := some 100
    valueEmp := some 0
    salesPerEmployee := PFloat.inf true }

/-- C6 (amended) witness: the concrete zero-employment derived row takes the
infinity branch of the division semantics. -/
theorem sales_per_employee_division_witness :
    dGold.salesPerEmployee
      = (if (100 : ℚ) = 0 then PFloat.nan else PFloat.inf (decide ((0 : ℚ) < 100))) :=
  ((sales_per_employee_division (loadObservations [rSGold, rEGold]) dGold
      (by decide)).2.2.1 100 rfl rfl)

/-! ## C9: idempotence of the label cleaner — title-case and strip lemmas -/

theorem titleMap_length (b : Bool) (s : List Char) : (titleMap b s).length = s.length := by
  induction s generalizing b with
  | nil => rfl
  | cons c cs ih => simp [titleMap, ih]

theorem titleMap_idem (b : Bool) (s : List Char) :
    titleMap b (titleMap b s) = titleMap b s := by
  induction s generalizing b with
  | nil => rfl
  | cons c cs ih =>
    rw [titleMap, titleMap, isAlphaA_titleChar, titleChar_idem, ih]

theorem dropWhile_idem (p : Char → Bool) (l : List Char) :
    (l.dropWhile p).dropWhile p = l.dropWhile p := by
  induction l with
  | nil => rfl
  | cons a t ih =>
    by_cases h : p a = true
    · rw [List.dropWhile_cons_of_pos h, ih]
    · rw [List.dropWhile_cons_of_neg h, List.dropWhile_cons_of_neg h]

theorem dropWhile_eq_self (p : Char → Bool) (l : List Char)
    (h : ∀ c, l.head? = some c → p c = false) : l.dropWhile p = l := by
  cases l with
  | nil => rfl
  | cons a t => rw [List.dropWhile_cons_of_neg (by simp [h a rfl])]

theorem dropWhile_append_of_all (p : Char → Bool) (u v : List Char)
    (h : ∀ c ∈ u, p c = true) :
    List.dropWhile p (u ++ v) = List.dropWhile p v := by
  induction u with
  | nil => rfl
  | cons a t ih =>
    rw [List.cons_append, List.dropWhile_cons_of_pos (h a (by simp))]
    exact ih (fun c hc => h c (by simp [hc]))

theorem trimR_append (l : List Char) :
    trimR l ++ (l.reverse.takeWhile isWs).reverse = l := by
  rw [trimR]
  calc (l.reverse.dropWhile isWs).reverse ++ (l.reverse.takeWhile isWs).reverse
      = (l.reverse.takeWhile isWs ++ l.reverse.dropWhile isWs).reverse := by
        rw [List.reverse_append]
    _ = l.reverse.reverse := by rw [List.takeWhile_append_dropWhile]
    _ = l := List.reverse_reverse l

theorem trimR_idem (l : List Char) : trimR (trimR l) = trimR l := by
  rw [trimR, trimR, List.reverse_reverse, dropWhile_idem]

theorem trimL_trimR_of_trimL (s : List Char) :
    trimL (trimR (trimL s)) = trimR (trimL s) := by
  apply dropWhile_eq_self
  intro c hc
  have hhead : (trimL s).head? = some c := by
    rw [← trimR_append (trimL s)]
    cases htr : trimR (trimL s) with
    | nil => rw [htr] at hc; cases hc
    | cons a t =>
      rw [htr] at hc
      simp only [List.head?_cons, Option.some.injEq] at hc
      subst hc
      rfl
  exact head_dropWhile_not isWs s c hhead

theorem trim_idem (s : List Char) : trim (trim s) = trim s := by
  rw [trim, trim, trimL_trimR_of_trimL, trimR_idem]

theorem trimL_titleMap (z : List Char) :
    trimL (titleMap false z) = titleMap false (trimL z) := by
  induction z with
  | nil => rfl
  | cons c cs ih =>
    rw [titleMap]
    by_cases h : isWs c = true
    · have hna : isAlphaA c = false := by
        cases ha : isAlphaA c
        · rfl
        · rw [isAlphaA_isWs c ha] at h
          cases h
      rw [titleChar_not_alpha false c hna, hna]
      show List.dropWhile isWs (c :: titleMap false cs)
          = titleMap false (List.dropWhile isWs (c :: cs))
      rw [List.dropWhile_cons_of_pos h, List.dropWhile_cons_of_pos h]
      exact ih
    · have h2 : isWs c = false := by
        cases hw : isWs c
        · rfl
        · exact absurd hw h
      have hout : isWs (titleChar false c) = false := by rw [isWs_titleChar]; exact h2
      show List.dropWhile isWs (titleChar false c :: titleMap (isAlphaA c) cs)
          = titleMap false (List.dropWhile isWs (c :: cs))
      rw [List.dropWhile_cons_of_neg (by simp [hout]),
        List.dropWhile_cons_of_neg (by simp [h2])]
      rfl

theorem titleMap_reverse_head (b : Bool) (a : List Char) (c : Char)
    (h : (titleMap b a).reverse.head? = some c) :
    ∃ d, a.reverse.head? = some d ∧ isWs c = isWs d := by
  induction a generalizing b with
  | nil => cases h
  | cons x xs ih =>
    cases xs with
    | nil =>
      simp only [titleMap, List.reverse_cons, List.reverse_nil, List.nil_append,
        List.head?_cons, Option.some.injEq] at h ⊢
      exact ⟨x, rfl, by rw [← h, isWs_titleChar]⟩
    | cons y ys =>
      rw [titleMap] at h
      have hne : titleMap (isAlphaA x) (y :: ys) ≠ [] := by
        intro hnil
        have := titleMap_length (isAlphaA x) (y :: ys)
        rw [hnil] at this
        simp at this
      rw [List.reverse_cons, List.head?_append_of_ne_nil _ (by simpa using hne)] at h
      obtain ⟨d, hd, hw⟩ := ih (isAlphaA x) h
      refine ⟨d, ?_, hw⟩
      rw [List.reverse_cons, List.head?_append_of_ne_nil _ (by simp)]
      exact hd

theorem length_dropWhile_le (p : Char → Bool) (l : List Char) :
    (l.dropWhile p).length ≤ l.length := by
  induction l with
  | nil => exact Nat.le_refl _
  | cons a t ih =>
    by_cases h : p a = true
    · rw [List.dropWhile_cons_of_pos h]
      exact Nat.le_trans ih (Nat.le_succ _)
    · rw [List.dropWhile_cons_of_neg h]

theorem trimR_eq_self_of_head (a : List Char)
    (h : ∀ c, a.reverse.head? = some c → isWs c = false) : trimR a = a := by
  rw [trimR, dropWhile_eq_self _ _ h, List.reverse_reverse]

theorem head_of_trimR_eq_self (a : List Char) (ha : trimR a = a) (c : Char)
    (hc : a.reverse.head? = some c) : isWs c = false := by
  cases hx : isWs c
  · rfl
  · exfalso
    cases hrev : a.reverse with
    | nil => rw [hrev] at hc; cases hc
    | cons d t =>
      rw [hrev] at hc
      simp only [List.head?_cons, Option.some.injEq] at hc
      subst hc
      have h1 : trimR a = (t.dropWhile isWs).reverse := by
        rw [trimR, hrev, List.dropWhile_cons_of_pos hx]
      have h2 : a.length = (t.dropWhile isWs).length := by
        rw [← ha, h1, List.length_reverse]
      have h3 : a.length = t.length + 1 := by
        have h4 := congrArg List.length hrev
        simpa using h4
      have h5 := length_dropWhile_le isWs t
      omega

theorem trimR_titleMap_of_fix (b : Bool) (a : List Char) (ha : trimR a = a) :
    trimR (titleMap b a) = titleMap b a := by
  apply trimR_eq_self_of_head
  intro c hc
  obtain ⟨d, hd, hw⟩ := titleMap_reverse_head b a c hc
  rw [hw]
  exact head_of_trimR_eq_self a ha d hd

theorem trim_title_trim (w : List Char) :
    trim (title (trim w)) = title (trim w) := by
  rw [trim, title, trimL_titleMap]
  have h1 : trimL (trim w) = trim w := by
    rw [trim, trimL_trimR_of_trimL]
  rw [h1]
  exact trimR_titleMap_of_fix false (trim w) (by rw [trim, trimR_idem])

theorem titleMap_space_then_alpha (b : Bool) (s l r : List Char) (c : Char)
    (h : titleMap b s = l ++ ' ' :: c :: r) (hc : isAlphaA c = true) :
    isUpperA c = true := by
  induction s generalizing b l with
  | nil => cases l <;> simp [titleMap] at h
  | cons x xs ih =>
    rw [titleMap] at h
    cases l with
    | nil =>
      simp only [List.nil_append] at h
      injection h with h1 h2
      have hxna : isAlphaA x = false := by
        cases hax : isAlphaA x
        · rfl
        · have h5 := isAlphaA_titleChar b x
          rw [h1, hax] at h5
          exact absurd h5 (by decide)
      rw [hxna] at h2
      cases xs with
      | nil => cases h2
      | cons y ys =>
        rw [titleMap] at h2
        injection h2 with h3 h4
        rw [← h3]
        apply isUpperA_titleChar_false
        rw [← isAlphaA_titleChar false y, h3]
        exact hc
    | cons a l2 =>
      injection h with h1 h2
      exact ih (isAlphaA x) l2 h2

theorem titleMap_no_mining_of (b : Bool) (s rest : List Char) :
    titleMap b s
      ≠ 'M' :: 'i' :: 'n' :: 'i' :: 'n' :: 'g' :: ' ' :: 'o' :: 'f' :: ' ' :: rest := by
  intro h
  have h1 : isUpperA 'o' = true := by
    apply titleMap_space_then_alpha b s ['M', 'i', 'n', 'i', 'n', 'g'] ('f' :: ' ' :: rest) 'o'
    · simpa using h
    · decide
  exact absurd h1 (by decide)

theorem isPrefixOf_eq_append (p s : List Char) (h : p.isPrefixOf s = true) :
    ∃ t, s = p ++ t := by
  induction p generalizing s with
  | nil => exact ⟨s, rfl⟩
  | cons a q ih =>
    cases s with
    | nil => simp [List.isPrefixOf] at h
    | cons b t =>
      rw [List.isPrefixOf, Bool.and_eq_true, beq_iff_eq] at h
      obtain ⟨t2, rfl⟩ := ih t h.2
      exact ⟨t2, by rw [h.1, List.cons_append]⟩

theorem hasMO_titleMap (b : Bool) (s : List Char) : hasMO (titleMap b s) = false := by
  induction s generalizing b with
  | nil => rfl
  | cons c cs ih =>
    rw [titleMap, hasMO, ih, Bool.or_false]
    cases hp : miningOf.isPrefixOf (titleChar b c :: titleMap (isAlphaA c) cs)
    · rfl
    · exfalso
      obtain ⟨t, ht⟩ := isPrefixOf_eq_append _ _ hp
      apply titleMap_no_mining_of b (c :: cs) t
      rw [titleMap, ht]
      rfl

theorem stripMOAux_of_no_occ (s : List Char) (fuel : Nat) (h : hasMO s = false) :
    stripMOAux fuel s = s := by
  induction s generalizing fuel with
  | nil => cases fuel <;> rfl
  | cons c cs ih =>
    cases fuel with
    | zero => rfl
    | succ n =>
      rw [hasMO, Bool.or_eq_false_iff] at h
      show (if miningOf.isPrefixOf (c :: cs) = true then stripMOAux n ((c :: cs).drop 10)
            else c :: stripMOAux n cs) = c :: cs
      rw [if_neg (by simp [h.1]), ih n h.2]

theorem stripMiningOf_titleMap (b : Bool) (s : List Char) :
    stripMiningOf (titleMap b s) = titleMap b s := by
  rw [stripMiningOf]
  exact stripMOAux_of_no_occ _ _ (hasMO_titleMap b s)

theorem titleChar_eq_of_not_alpha_char (b : Bool) (c d : Char) (hd : isAlphaA d = false)
    (h : titleChar b c = d) : c = d := by
  by_cases ha : isAlphaA c = true
  · exfalso
    have h2 := isAlphaA_titleChar b c
    rw [h, ha] at h2
    rw [h2] at hd
    cases hd
  · rw [titleChar_not_alpha b c (by simpa using ha)] at h
    exact h

theorem titleChar_ne_of_not_alpha_char (b : Bool) (c d : Char) (hd : isAlphaA d = false)
    (h : ¬ c = d) : ¬ titleChar b c = d := fun he => h (titleChar_eq_of_not_alpha_char b c d hd he)

theorem hasCP_titleMap (b : Bool) (s : List Char) : hasCP (titleMap b s) = hasCP s := by
  induction s generalizing b with
  | nil => rfl
  | cons c cs ih =>
    have ih2 : ((titleMap (isAlphaA c) cs).any fun x => decide (x = ')'))
        = (cs.any fun x => decide (x = ')')) := ih (isAlphaA c)
    rw [titleMap]
    show (titleChar b c :: titleMap (isAlphaA c) cs).any _ = (c :: cs).any _
    rw [List.any_cons, List.any_cons, ih2]
    congr 1
    by_cases h : c = ')'
    · subst h
      rw [titleChar_not_alpha b ')' (by decide)]
    · have h2 := titleChar_ne_of_not_alpha_char b c ')' (by decide) h
      simp [h, h2]

theorem hasPM_titleMap (b : Bool) (s : List Char) : hasPM (titleMap b s) = hasPM s := by
  induction s generalizing b with
  | nil => rfl
  | cons c cs ih =>
    rw [titleMap, hasPM, hasPM]
    by_cases h : c = '('
    · subst h
      rw [titleChar_not_alpha b '(' (by decide), if_pos rfl, if_pos rfl, hasCP_titleMap]
    · have h2 := titleChar_ne_of_not_alpha_char b c '(' (by decide) h
      rw [if_neg h2, if_neg h, ih]

theorem hasCP_eq_true_iff (s : List Char) : hasCP s = true ↔ ')' ∈ s := by
  rw [hasCP, List.any_eq_true]
  constructor
  · rintro ⟨x, hx, hd⟩
    rw [decide_eq_true_eq] at hd
    rw [← hd]
    exact hx
  · intro h
    exact ⟨')', h, by simp⟩

theorem hasPM_eq_true_iff (s : List Char) :
    hasPM s = true ↔ List.Sublist ['(', ')'] s := by
  induction s with
  | nil =>
    constructor
    · intro h
      cases h
    · intro h
      cases h
  | cons c cs ih =>
    rw [hasPM]
    by_cases h : c = '('
    · subst h
      rw [if_pos rfl]
      constructor
      · intro hcp
        have hmem := (hasCP_eq_true_iff cs).mp hcp
        exact List.Sublist.cons₂ '(' ((List.singleton_sublist).mpr hmem)
      · intro hs
        rw [hasCP_eq_true_iff]
        cases hs with
        | cons _ hsub => exact hsub.subset (by simp)
        | cons₂ _ hsub => exact hsub.subset (by simp)
    · rw [if_neg h, ih]
      constructor
      · intro hsub
        exact List.Sublist.cons c hsub
      · intro hsub
        cases hsub with
        | cons _ hsub2 => exact hsub2
        | cons₂ _ hsub2 => exact absurd rfl h
    
theorem hasPM_false_of_sublist (s t : List Char) (hsub : List.Sublist t s)
    (hs : hasPM s = false) : hasPM t = false := by
  cases hPM : hasPM t
  · rfl
  · exfalso
    have h1 := (hasPM_eq_true_iff t).mp hPM
    have h2 := (hasPM_eq_true_iff s).mpr (h1.trans hsub)
    rw [h2] at hs
    cases hs

theorem trimR_sublist (l : List Char) : List.Sublist (trimR l) l := by
  rw [trimR]
  have h3 := List.Sublist.reverse (List.dropWhile_sublist (l := l.reverse) isWs)
  rw [List.reverse_reverse] at h3
  exact h3

theorem trim_sublist (s : List Char) : List.Sublist (trim s) s := by
  exact (trimR_sublist (trimL s)).trans (List.dropWhile_sublist _)

theorem hasPM_iff_guard (s : List Char) :
    hasPM s = (match s.dropWhile (fun c => !decide (c = '(')) with
               | [] => false
               | _ :: mid => mid.any (fun c => decide (c = ')'))) := by
  induction s with
  | nil => rfl
  | cons c cs ih =>
    rw [hasPM]
    by_cases h : c = '('
    · subst h
      rw [if_pos rfl, List.dropWhile_cons_of_neg (by simp)]
      rfl
    · rw [if_neg h, List.dropWhile_cons_of_pos (by simp [h]), ih]

theorem removeParen_of_no_match (s : List Char) (h : hasPM s = false) :
    removeParen s = s := by
  rw [hasPM_iff_guard] at h
  show (match s.dropWhile (fun c => !decide (c = '(')) with
        | [] => s
        | _ :: mid =>
            if mid.any (fun c => decide (c = ')')) then
              trimR (s.takeWhile (fun c => !decide (c = '('))) ++
                (mid.reverse.takeWhile (fun c => !decide (c = ')'))).reverse
            else s) = s
  cases hdrop : s.dropWhile (fun c => !decide (c = '(')) with
  | nil => rfl
  | cons x mid =>
    simp only [hdrop] at h
    show (if (mid.any fun c => decide (c = ')')) = true then
        trimR (s.takeWhile (fun c => !decide (c = '('))) ++
          (mid.reverse.takeWhile (fun c => !decide (c = ')'))).reverse
      else s) = s
    rw [if_neg (by simp [h])]

theorem hasPM_append_no_open (u v : List Char) (h : ∀ c ∈ u, ¬ c = '(') :
    hasPM (u ++ v) = hasPM v := by
  induction u with
  | nil => rfl
  | cons a t ih =>
    rw [List.cons_append, hasPM, if_neg (h a (by simp))]
    exact ih (fun c hc => h c (by simp [hc]))

theorem hasPM_of_no_close (v : List Char) (h : ∀ c ∈ v, ¬ c = ')') : hasPM v = false := by
  induction v with
  | nil => rfl
  | cons a t ih =>
    rw [hasPM]
    by_cases ha : a = '('
    · rw [if_pos ha]
      cases hcp : hasCP t
      · rfl
      · exfalso
        have hmem := (hasCP_eq_true_iff t).mp hcp
        exact h ')' (by simp [hmem]) rfl
    · rw [if_neg ha]
      exact ih (fun c hc => h c (by simp [hc]))

theorem hasPM_removeParen (s : List Char) : hasPM (removeParen s) = false := by
  by_cases h : hasPM s = true
  · show hasPM (match s.dropWhile (fun c => !decide (c = '(')) with
        | [] => s
        | _ :: mid =>
            if mid.any (fun c => decide (c = ')')) then
              trimR (s.takeWhile (fun c => !decide (c = '('))) ++
                (mid.reverse.takeWhile (fun c => !decide (c = ')'))).reverse
            else s) = false
    cases hdrop : s.dropWhile (fun c => !decide (c = '(')) with
    | nil =>
      exfalso
      rw [hasPM_iff_guard] at h
      simp only [hdrop] at h
      cases h
    | cons x mid =>
      show hasPM (if (mid.any fun c => decide (c = ')')) = true then
          trimR (s.takeWhile (fun c => !decide (c = '('))) ++
            (mid.reverse.takeWhile (fun c => !decide (c = ')'))).reverse
        else s) = false
      by_cases hcp : (mid.any fun c => decide (c = ')')) = true
      · rw [if_pos hcp]
        rw [hasPM_append_no_open]
        · apply hasPM_of_no_close
          intro c hc
          rw [List.mem_reverse] at hc
          have h4 := List.mem_takeWhile_imp hc
          simpa using h4
        · intro c hc
          have hc2 := (trimR_sublist _).subset hc
          have h5 := List.mem_takeWhile_imp hc2
          simpa using h5
      · exfalso
        rw [hasPM_iff_guard] at h
        simp only [hdrop] at h
        exact hcp h
  · have hf : hasPM s = false := by simpa using h
    rw [removeParen_of_no_match s hf]
    exact hf

theorem clean_idem (s : List Char) : clean (clean s) = clean s := by
  have hstrip : stripMiningOf (clean s) = clean s := by
    rw [clean, title]
    exact stripMiningOf_titleMap false _
  have hpm : hasPM (clean s) = false := by
    rw [clean, title, hasPM_titleMap]
    exact hasPM_false_of_sublist _ _ (trim_sublist _) (hasPM_removeParen _)
  have hparen : removeParen (clean s) = clean s := removeParen_of_no_match _ hpm
  have htrim : trim (clean s) = clean s := by
    rw [clean]
    exact trim_title_trim _
  have htitle : title (clean s) = clean s := by
    rw [clean, title]
    exact titleMap_idem false _
  calc clean (clean s) = title (trim (removeParen (stripMiningOf (clean s)))) := rfl
    _ = title (trim (removeParen (clean s))) := by rw [hstrip]
    _ = title (trim (clean s)) := by rw [hparen]
    _ = title (clean s) := by rw [htrim]
    _ = clean s := htitle

/-! ## C9: the label normalizer is idempotent -/

/-- C9: the label normalizer (strip the leading phrase, strip the
parenthetical, trim whitespace, title-case) is idempotent: normalizing an
already-normalized label returns it unchanged. -/
theorem label_normalizer_idempotent (s : String) : cleanS (cleanS s) = cleanS s :=
  congrArg String.mk (clean_idem s.data)

end Mining
